import Mathlib

/-!
Verification development for the kapetan-io/errors Go library.

The library attaches structured key/value context to Go errors:

* the attribute subsystem (`Attrs` builder, `ErrAttrs` node) attaches
  `slog.Attr` pairs plus a program-counter (`pc`) captured at creation;
* the field subsystem (`Fields` builder, `fields` node) attaches a flat
  `[]any` list with no location capture;
* collectors walk the wrap chain (`errors.As`-style search over repeated
  single-level `Unwrap`) and aggregate the attached context.

The embedding below mirrors the Go source.  Go `any` values that occur in
argument lists are modelled by the inductive `Arg` (a string, an
`slog.Attr`, or some other value), `slog.Attr` by `String × Arg`, errors
by the inductive `GoError`, program counters by `Nat` (location capture is
runtime stack introspection, so constructors take the captured `pc` as an
explicit parameter).  `fmt.Errorf` with a trailing `%w` directive is
modelled by the `fmtWrap` constructor (message prefix plus wrapped error);
`errors.New` and `%w`-free `fmt.Errorf` results are `base` errors.
-/

/-- A Go value that is neither a string nor an `slog.Attr` (the `default`
branch of `argsToAttr`).  `vnil` models Go's untyped `nil`. -/
inductive GoVal where
  | vnil : GoVal
  | vint : Int → GoVal
  deriving DecidableEq

/-- One element of a Go `[]any` argument list, as inspected by the type
switch in `argsToAttr`: a `string`, an `slog.Attr` (key and value), or any
other value. -/
inductive Arg where
  | str : String → Arg
  | attr : String → Arg → Arg
  | other : GoVal → Arg
  deriving DecidableEq

/-- `slog.Attr`: a key paired with a value. -/
abbrev Attr := String × Arg

/-- The Go builder `Attrs` holds `attrs []slog.Attr`. -/
abbrev Attrs := List Attr

/-- The Go builder `Fields` is `[]any`. -/
abbrev Fields := List Arg

/-- `badKey` sentinel used by `argsToAttr` for malformed argument lists. -/
def badKey : String := "!BADKEY"

/-- `argsToAttr` from the source: turns a prefix of the nonempty args
slice (given as head `x` and tail `rest`) into an `Attr` and returns the
unconsumed portion.  A string head consumes a following value (or becomes
a `badKey` value when it is the last element); an `slog.Attr` head is
returned verbatim; any other head becomes a `badKey` value. -/
def argsToAttr : Arg → List Arg → Attr × List Arg
  | Arg.str s, [] => ((badKey, Arg.str s), [])
  | Arg.str s, v :: rest => ((s, v), rest)
  | Arg.attr k v, rest => ((k, v), rest)
  | Arg.other g, rest => ((badKey, Arg.other g), rest)

/-- `argsToAttrSlice` from the source: repeatedly applies `argsToAttr`
until the argument list is exhausted.  The two-element consumption of the
string case is unrolled so the recursion is structural. -/
def argsToAttrSlice : List Arg → List Attr
  | [] => []
  | Arg.str s :: [] => [(badKey, Arg.str s)]
  | Arg.str s :: v :: rest => (s, v) :: argsToAttrSlice rest
  | Arg.attr k v :: rest => (k, v) :: argsToAttrSlice rest
  | Arg.other g :: rest => (badKey, Arg.other g) :: argsToAttrSlice rest

/-- `argsToAttrSlice` consumes its input one `argsToAttr` step at a time
(the loop body of the Go function). -/
theorem argsToAttrSlice_step (x : Arg) (rest : List Arg) :
    argsToAttrSlice (x :: rest) =
      (argsToAttr x rest).1 :: argsToAttrSlice (argsToAttr x rest).2 := by
  cases x with
  | str s => cases rest <;> rfl
  | attr k v => rfl
  | other g => rfl

/-- A Go error value, as relevant to this library.

* `base msg` — `errors.New(msg)` (or `fmt.Errorf` without a `%w`
  directive): yields message `msg`, has no `Unwrap` method;
* `fmtWrap pre e` — `fmt.Errorf(pre ++ "%w", e)`: message is
  `pre ++ e.Error()`, its `Unwrap` method returns `e`;
* `errAttrs attrs pc wrapped` — the `ErrAttrs` node of the attribute
  subsystem;
* `fields flds wrapped` — the `fields` node of the field subsystem. -/
inductive GoError where
  | base : String → GoError
  | fmtWrap : String → GoError → GoError
  | errAttrs : Attrs → Nat → GoError → GoError
  | fields : Fields → GoError → GoError
  deriving DecidableEq

/-- `Error()` of each error value.  `ErrAttrs.Error` and `fields.Error`
both return `wrapped.Error()` verbatim. -/
def errMessage : GoError → String
  | GoError.base s => s
  | GoError.fmtWrap pre e => pre ++ errMessage e
  | GoError.errAttrs _ _ w => errMessage w
  | GoError.fields _ w => errMessage w

/-- Whether the error's dynamic type has an `Unwrap() error` method (the
type assertion `wrapped.(interface{ Unwrap() error })` in the source).
`errors.New` results do not; `fmt.Errorf`-with-`%w` results and both node
types do. -/
def hasUnwrap : GoError → Bool
  | GoError.base _ => false
  | GoError.fmtWrap _ _ => true
  | GoError.errAttrs _ _ _ => true
  | GoError.fields _ _ => true

/-- The result of calling the `Unwrap` method.  For `fmt` wrap errors it
is the wrapped error.  For `ErrAttrs` and `fields` nodes the method is:
if the wrapped error itself has an `Unwrap` method, delegate to it;
otherwise return the wrapped error itself.  (On `base`, which has no
method, the value is arbitrary; callers guard with `hasUnwrap`.) -/
def unwrapMethod : GoError → GoError
  | GoError.base s => GoError.base s
  | GoError.fmtWrap _ e => e
  | GoError.errAttrs _ _ w => if hasUnwrap w then unwrapMethod w else w
  | GoError.fields _ w => if hasUnwrap w then unwrapMethod w else w

/-- Standard-library `errors.Unwrap`: calls the `Unwrap` method when the
dynamic type has one, and returns `nil` (`none`) otherwise. -/
def stdUnwrap (e : GoError) : Option GoError :=
  if hasUnwrap e then some (unwrapMethod e) else none

namespace Attrs

/-- `Attrs.WithAttr`: a new builder whose attribute list is the
receiver's followed by the given attributes. -/
def WithAttr (a : Attrs) (as : List Attr) : Attrs := a ++ as

/-- `Attrs.With`: decodes the variadic arguments pairwise and appends. -/
def With (a : Attrs) (args : List Arg) : Attrs :=
  Attrs.WithAttr a (argsToAttrSlice args)

/-- `Attrs.Wrap`: `nil` in, `nil` out; otherwise a new `ErrAttrs` node
capturing the builder's attributes and the call-site `pc`. -/
def Wrap (a : Attrs) (pc : Nat) : Option GoError → Option GoError
  | none => none
  | some e => some (GoError.errAttrs a pc e)

/-- `Attrs.Error`: a new `ErrAttrs` node wrapping `errors.New msg`. -/
def Error (a : Attrs) (pc : Nat) (msg : String) : GoError :=
  GoError.errAttrs a pc (GoError.base msg)

/-- `Attrs.Errorf` with a trailing `%w` directive: a new `ErrAttrs` node
wrapping `fmt.Errorf (pre ++ "%w") e`. -/
def Errorf (a : Attrs) (pc : Nat) (pre : String) (e : GoError) : GoError :=
  GoError.errAttrs a pc (GoError.fmtWrap pre e)

end Attrs

/-- Package-level `With`: `(&Attrs{}).With(args...)`. -/
def With (args : List Arg) : Attrs := Attrs.With [] args

/-- Package-level `WithAttr`: `(&Attrs{}).WithAttr(attrs...)`. -/
def WithAttr (as : List Attr) : Attrs := Attrs.WithAttr [] as

namespace Fields

/-- `Fields.Wrap`: `nil` in, `nil` out; otherwise a new `fields` node. -/
def Wrap (f : Fields) : Option GoError → Option GoError
  | none => none
  | some e => some (GoError.fields f e)

/-- `Fields.Error`: a new `fields` node wrapping `errors.New msg`. -/
def Error (f : Fields) (msg : String) : GoError :=
  GoError.fields f (GoError.base msg)

/-- `Fields.Errorf` with a trailing `%w` directive. -/
def Errorf (f : Fields) (pre : String) (e : GoError) : GoError :=
  GoError.fields f (GoError.fmtWrap pre e)

end Fields

/-- `unwrapOrSelf w`: the value an `ErrAttrs`/`fields` node's `Unwrap`
method returns given wrapped error `w` — `w`'s own `Unwrap` result when
`w` has the method, `w` itself otherwise. -/
def unwrapOrSelf (w : GoError) : GoError :=
  if hasUnwrap w then unwrapMethod w else w

/-- The wrap chain visited by standard-library chain search (`errors.As`,
`errors.Is`): the error itself followed by the chain of its single-level
unwrap.  The `Bool` flag distinguishes the two recursion modes so the
definition is structural: `chainAux false e` is the chain starting at
`e`; `chainAux true w` is the chain starting at `unwrapOrSelf w` (where
an `ErrAttrs`/`fields` node's `Unwrap` lands given wrapped error `w`). -/
def chainAux : Bool → GoError → List GoError
  | false, GoError.base s => [GoError.base s]
  | false, GoError.fmtWrap pre e => GoError.fmtWrap pre e :: chainAux false e
  | false, GoError.errAttrs a p w => GoError.errAttrs a p w :: chainAux true w
  | false, GoError.fields f w => GoError.fields f w :: chainAux true w
  | true, GoError.base s => [GoError.base s]
  | true, GoError.fmtWrap _ e => chainAux false e
  | true, GoError.errAttrs _ _ w => chainAux true w
  | true, GoError.fields _ w => chainAux true w

/-- The unwrap chain of an error. -/
def chainList (e : GoError) : List GoError := chainAux false e

theorem chainAux_true_eq (w : GoError) :
    chainAux true w = chainAux false (unwrapOrSelf w) := by
  induction w with
  | base s => rfl
  | fmtWrap pre e ih => rfl
  | errAttrs a p w ih =>
      simp only [chainAux, unwrapOrSelf, hasUnwrap, unwrapMethod, if_true] at *
      exact ih
  | fields f w ih =>
      simp only [chainAux, unwrapOrSelf, hasUnwrap, unwrapMethod, if_true] at *
      exact ih

/-- The chain is the error followed by the chain of its single-level
standard unwrap. -/
theorem chainList_eq_unwrap (e : GoError) :
    chainList e = e :: (match stdUnwrap e with
                        | some t => chainList t
                        | none => []) := by
  cases e with
  | base s => rfl
  | fmtWrap pre e => rfl
  | errAttrs a p w =>
      show GoError.errAttrs a p w :: chainAux true w = _
      rw [chainAux_true_eq]
      rfl
  | fields f w =>
      show GoError.fields f w :: chainAux true w = _
      rw [chainAux_true_eq]
      rfl

/-- Whether an error's dynamic type implements `HasAttrs` (only
`*ErrAttrs` does among the types modelled here). -/
def isHasAttrs : GoError → Bool
  | GoError.errAttrs _ _ _ => true
  | _ => false

/-- Whether an error's dynamic type implements `HasFields` (only
`*fields` does among the types modelled here). -/
def isHasFields : GoError → Bool
  | GoError.fields _ _ => true
  | _ => false

/-- The combined `errors.As(e, &a)`-then-`a.Attrs()` computation: walk
the chain of `e` for the first `HasAttrs` error and return the result of
calling its `Attrs()` method, or `none` when the chain has no such error.
The `ErrAttrs.Attrs` method itself is: own attributes first, then — when
`errors.As(e.wrapped, &a)` finds a `HasAttrs` error — the recursively
collected child attributes appended; the returned `pc` is the child call's
`pc` whenever the child search succeeds (both `child == nil` branches of
the source reassign `pc`), and the node's own `pc` only otherwise.  The
`Bool` flag plays the same role as in `chainAux`. -/
def attrsAux : Bool → GoError → Option (List Attr × Nat)
  | false, GoError.base _ => none
  | false, GoError.fmtWrap _ e => attrsAux false e
  | false, GoError.errAttrs a p w =>
      some (match attrsAux false w with
            | some (child, cpc) =>
                if child.isEmpty then (a, cpc) else (a ++ child, cpc)
            | none => (a, p))
  | false, GoError.fields _ w => attrsAux true w
  | true, GoError.base _ => none
  | true, GoError.fmtWrap _ e => attrsAux false e
  | true, GoError.errAttrs _ _ w => attrsAux true w
  | true, GoError.fields _ w => attrsAux true w

/-- `ErrAttrs.Attrs` on a node with attributes `a`, pc `p` and wrapped
error `w`: own attributes, then the child attributes found by
`errors.As(e.wrapped, &a)`; the returned pc comes from the child whenever
the search succeeds. -/
def errAttrsAttrs (a : Attrs) (p : Nat) (w : GoError) : List Attr × Nat :=
  match attrsAux false w with
  | some (child, cpc) =>
      if child.isEmpty then (a, cpc) else (a ++ child, cpc)
  | none => (a, p)

theorem attrsAux_errAttrs (a : Attrs) (p : Nat) (w : GoError) :
    attrsAux false (GoError.errAttrs a p w) = some (errAttrsAttrs a p w) := rfl

/-- The `Attrs()` method dispatched on an error value (meaningful on
`ErrAttrs` nodes). -/
def attrsOf : GoError → List Attr × Nat
  | GoError.errAttrs a p w => errAttrsAttrs a p w
  | _ => ([], 0)

/-- `AttrsFrom`: the attribute list of the first `HasAttrs` error in the
chain, or the placeholder `[slog.Any("", nil)]` when there is none. -/
def AttrsFrom (e : GoError) : List Attr :=
  match attrsAux false e with
  | some r => r.1
  | none => [("", Arg.other GoVal.vnil)]

/-- The combined `errors.As(e, &f)`-then-`f.Fields()` computation for the
field subsystem, analogous to `attrsAux`.  The `fields.Fields` method is:
own fields first, then — when `errors.As(c.wrapped, &f)` finds a
`HasFields` error — the recursively collected child fields appended
("child fields have precedence as they are closer to the cause"). -/
def fieldsAux : Bool → GoError → Option (List Arg)
  | false, GoError.base _ => none
  | false, GoError.fmtWrap _ e => fieldsAux false e
  | false, GoError.errAttrs _ _ w => fieldsAux true w
  | false, GoError.fields f w =>
      some (match fieldsAux false w with
            | some child => if child.isEmpty then f else f ++ child
            | none => f)
  | true, GoError.base _ => none
  | true, GoError.fmtWrap _ e => fieldsAux false e
  | true, GoError.errAttrs _ _ w => fieldsAux true w
  | true, GoError.fields _ w => fieldsAux true w

/-- `fields.Fields` on a node with fields `f` and wrapped error `w`. -/
def fieldsFields (f : Fields) (w : GoError) : List Arg :=
  match fieldsAux false w with
  | some child => if child.isEmpty then f else f ++ child
  | none => f

theorem fieldsAux_fields (f : Fields) (w : GoError) :
    fieldsAux false (GoError.fields f w) = some (fieldsFields f w) := rfl

/-- Assignment `m[k] = v` on a Go map, modelled on an association list:
replaces the binding of `k` if present, appends it otherwise. -/
def mapSet : List (String × Arg) → String → Arg → List (String × Arg)
  | [], k, v => [(k, v)]
  | (k0, v0) :: rest, k, v =>
      if k0 = k then (k0, v) :: rest else (k0, v0) :: mapSet rest k v

/-- Lookup `m[k]` on the association-list model of a Go map. -/
def mapGet : List (String × Arg) → String → Option Arg
  | [], _ => none
  | (k0, v) :: rest, k => if k0 = k then some v else mapGet rest k

/-- The decode-and-insert loop of `ToMap`: repeatedly consumes the args
via `argsToAttr` and assigns `result[attr.Key] = attr.Value`.  As in
`argsToAttrSlice`, the string case is unrolled to keep the recursion
structural. -/
def insertAll : List (String × Arg) → List Arg → List (String × Arg)
  | m, [] => m
  | m, Arg.str s :: [] => mapSet m badKey (Arg.str s)
  | m, Arg.str s :: v :: rest => insertAll (mapSet m s v) rest
  | m, Arg.attr k v :: rest => insertAll (mapSet m k v) rest
  | m, Arg.other g :: rest => insertAll (mapSet m badKey (Arg.other g)) rest

/-- `insertAll` consumes its input one `argsToAttr` step at a time (the
loop body of `ToMap`). -/
theorem insertAll_step (m : List (String × Arg)) (x : Arg) (rest : List Arg) :
    insertAll m (x :: rest) =
      insertAll (mapSet m (argsToAttr x rest).1.1 (argsToAttr x rest).1.2)
        (argsToAttr x rest).2 := by
  cases x with
  | str s => cases rest <;> rfl
  | attr k v => rfl
  | other g => rfl

/-- `ToMap`: a map initialized with `"err" ↦ err.Error()`, then — when
the chain search finds a `HasFields` error — every decoded (key, value)
pair of the collected field list assigned in order. -/
def ToMap (e : GoError) : List (String × Arg) :=
  let init := [("err", Arg.str (errMessage e))]
  match fieldsAux false e with
  | some args => insertAll init args
  | none => init

/-- `ToAttr`: `["err", err.Error()]` followed by the raw collected field
values. -/
def ToAttr (e : GoError) : List Arg :=
  let init := [Arg.str "err", Arg.str (errMessage e)]
  match fieldsAux false e with
  | some args => init ++ args
  | none => init

/-- Modelled from the spec: the package function `Last` is declared in
the repository's `errors.go`, which is absent from `src/` (only its tests
and README mention it).  Per the spec it walks the full chain via
repeated single-level unwrap, tracking the most recent error satisfying
the capability predicate.  `lastAux pred b e acc` visits the chain of `e`
(in the `chainAux` flag convention) with `acc` holding the most recent
match so far. -/
def lastAux (pred : GoError → Bool) : Bool → GoError → Option GoError → Option GoError
  | false, GoError.base s, acc =>
      if pred (GoError.base s) then some (GoError.base s) else acc
  | false, GoError.fmtWrap m e, acc =>
      lastAux pred false e
        (if pred (GoError.fmtWrap m e) then some (GoError.fmtWrap m e) else acc)
  | false, GoError.errAttrs a p w, acc =>
      lastAux pred true w
        (if pred (GoError.errAttrs a p w) then some (GoError.errAttrs a p w) else acc)
  | false, GoError.fields f w, acc =>
      lastAux pred true w
        (if pred (GoError.fields f w) then some (GoError.fields f w) else acc)
  | true, GoError.base s, acc =>
      if pred (GoError.base s) then some (GoError.base s) else acc
  | true, GoError.fmtWrap _ e, acc => lastAux pred false e acc
  | true, GoError.errAttrs _ _ w, acc => lastAux pred true w acc
  | true, GoError.fields _ w, acc => lastAux pred true w acc

/-- Modelled from the spec: `Last(err, &target)` walks the full chain,
and only writes the most recent match into `target`, returning `true`, if
at least one error in the chain satisfies the capability predicate;
otherwise it returns `false` and leaves `target` untouched.  The
in/out parameter `target` is modelled as an explicit argument and result. -/
def Last (pred : GoError → Bool) (e : GoError) (target : Option GoError) :
    Bool × Option GoError :=
  match lastAux pred false e none with
  | some m => (true, some m)
  | none => (false, target)

/-- `lastOr l acc`: the last element of `l`, or `acc` when `l` is empty —
the declarative shape of accumulator-tracked "most recent" search. -/
def lastOr : List GoError → Option GoError → Option GoError
  | [], acc => acc
  | x :: l, _ => lastOr l (some x)

/-- A Go slice header over a heap of backing arrays: the index of its
backing array, its length, and its capacity. -/
structure GoSlice where
  arr : Nat
  len : Nat
  cap : Nat
  deriving DecidableEq

/-- A heap of backing arrays of `slog.Attr`, indexed by position. -/
abbrev Heap := List (List Attr)

/-- Go's `append(s, x)` per the language specification: when the
destination has spare capacity (`len < cap`) the element is written into
the existing backing array — which stays shared with every other slice
over that array — and only otherwise is a fresh array allocated (the
grown capacity is implementation-defined; modelled as exact here, which
the corruption scenario below does not depend on).  `Attrs.WithAttr`'s
`append(a.attrs, as...)` has exactly these semantics. -/
def goAppend1 (h : Heap) (s : GoSlice) (x : Attr) : Heap × GoSlice :=
  if s.len < s.cap then
    (h.set s.arr ((h.getD s.arr []).set s.len x),
     { arr := s.arr, len := s.len + 1, cap := s.cap })
  else
    (h ++ [(h.getD s.arr []).take s.len ++ [x]],
     { arr := h.length, len := s.len + 1, cap := s.len + 1 })

/-- The attribute list observed through a slice header. -/
def readSlice (h : Heap) (s : GoSlice) : List Attr :=
  (h.getD s.arr []).take s.len

/-- C1 (counterexample): the claim predicts that `Attrs()` on an outer
node (origin 1) wrapping an inner node with a non-empty attribute list
(origin 2) returns the outer origin 1; the code returns the inner origin
2 (both `child == nil` branches of `ErrAttrs.Attrs` reassign `pc` to the
child's result, matching the source doc comment "The pc returned is from
the ErrAttrs closest to the root of the err tree"). -/
theorem c1_counterexample :
    errAttrsAttrs [("b", Arg.str "2")] 1
        (GoError.errAttrs [("a", Arg.str "1")] 2 (GoError.base "m"))
      = ([("b", Arg.str "2"), ("a", Arg.str "1")], 2) ∧ (2 : Nat) ≠ 1 :=
  ⟨rfl, by decide⟩

/-- C1 (amended): for a chain of two annotated nodes where the inner node
carries a non-empty attribute list, `Attrs()` on the outer node returns
the concatenated attribute list together with the *inner* node's origin;
the outer node's own origin is returned only when the wrapped chain
contains no attribute-capable error. -/
theorem c1_amended (a1 : Attrs) (p1 : Nat) (a2 : Attrs) (p2 : Nat) (m : String)
    (h : a2 ≠ []) :
    errAttrsAttrs a1 p1 (GoError.errAttrs a2 p2 (GoError.base m)) = (a1 ++ a2, p2) ∧
    (∀ w, attrsAux false w = none → errAttrsAttrs a1 p1 w = (a1, p1)) := by
  constructor
  · have hne : a2.isEmpty = false := by
      cases a2 with
      | nil => exact absurd rfl h
      | cons x xs => rfl
    simp [errAttrsAttrs, attrsAux, hne]
  · intro w hw
    simp [errAttrsAttrs, hw]

theorem c1_amended_witness :
    ([("a", Arg.str "1")] : Attrs) ≠ [] ∧
    errAttrsAttrs [("b", Arg.str "2")] 1
        (GoError.errAttrs [("a", Arg.str "1")] 2 (GoError.base "m"))
      = ([("b", Arg.str "2"), ("a", Arg.str "1")], 2) :=
  ⟨by decide,
   (c1_amended [("b", Arg.str "2")] 1 [("a", Arg.str "1")] 2 "m" (by decide)).1⟩

/-- C2: attributes attached in order `[a1, a2]` then wrapped via
`With(a3).Wrap(...)` collect from the outer node in the exact order
`[a3, a1, a2]` — the outer wrapper's attributes first, the inner node's
appended after, in their original order. -/
theorem c2_attr_order (k1 k2 k3 : String) (v1 v2 v3 : Arg) (p1 p2 : Nat)
    (msg : String) :
    (Attrs.Wrap (With [Arg.attr k3 v3]) p2
        (some (Attrs.Error (WithAttr [(k1, v1), (k2, v2)]) p1 msg))).map
      (fun n => (attrsOf n).1)
      = some [(k3, v3), (k1, v1), (k2, v2)] := rfl

/-- C3: wrapping an error never changes its plain message — the node's
`Error()` equals `cause.Error()` for both subsystems. -/
theorem c3_message_transparency (a : Attrs) (f : Fields) (p : Nat) (e : GoError) :
    (Attrs.Wrap a p (some e)).map errMessage = some (errMessage e) ∧
    (Fields.Wrap f (some e)).map errMessage = some (errMessage e) ∧
    errMessage (GoError.errAttrs a p e) = errMessage e ∧
    errMessage (GoError.fields f e) = errMessage e :=
  ⟨rfl, rfl, rfl, rfl⟩

/-- C4: the pairwise argument decoder — a string head followed by another
element consumes both as (key, value); a trailing string head yields a
`badKey` attribute holding that string; a non-string non-attribute head
yields a `badKey` attribute holding that element; a typed attribute head
is consumed verbatim; and both subsystems (the `With` decoding path via
`argsToAttrSlice` and the `ToMap` decode loop via `insertAll`) consume
arguments by this same `argsToAttr` step. -/
theorem c4_pairwise_decoder (s k : String) (v x : Arg) (g : GoVal)
    (rest : List Arg) (m : List (String × Arg)) :
    argsToAttr (Arg.str s) (v :: rest) = ((s, v), rest) ∧
    argsToAttr (Arg.str s) [] = ((badKey, Arg.str s), []) ∧
    argsToAttr (Arg.attr k v) rest = ((k, v), rest) ∧
    argsToAttr (Arg.other g) rest = ((badKey, Arg.other g), rest) ∧
    argsToAttrSlice (x :: rest) =
      (argsToAttr x rest).1 :: argsToAttrSlice (argsToAttr x rest).2 ∧
    insertAll m (x :: rest) =
      insertAll (mapSet m (argsToAttr x rest).1.1 (argsToAttr x rest).1.2)
        (argsToAttr x rest).2 :=
  ⟨rfl, rfl, rfl, rfl, argsToAttrSlice_step x rest, insertAll_step m x rest⟩

/-- C7: wrapping `nil` returns `nil` without constructing a node, and
wrapping a non-nil error constructs a new node, in both subsystems. -/
theorem c7_nil_wrap (a : Attrs) (f : Fields) (p : Nat) (e : GoError) :
    Attrs.Wrap a p none = none ∧ Fields.Wrap f none = none ∧
    Attrs.Wrap a p (some e) = some (GoError.errAttrs a p e) ∧
    Fields.Wrap f (some e) = some (GoError.fields f e) :=
  ⟨rfl, rfl, rfl, rfl⟩

/-- C6: a node's single-level `Unwrap()` delegates to the wrapped cause's
own `Unwrap` when the cause has one and returns the cause itself
otherwise (both subsystems); in particular the standard one-level unwrap
of `With(...).Errorf("message: %w", e)` is `e`. -/
theorem c6_unwrap_transparent (a : Attrs) (f : Fields) (p : Nat) (w : GoError)
    (pre : String) (e : GoError) :
    (hasUnwrap w = true → unwrapMethod (GoError.errAttrs a p w) = unwrapMethod w) ∧
    (hasUnwrap w = false → unwrapMethod (GoError.errAttrs a p w) = w) ∧
    (hasUnwrap w = true → unwrapMethod (GoError.fields f w) = unwrapMethod w) ∧
    (hasUnwrap w = false → unwrapMethod (GoError.fields f w) = w) ∧
    stdUnwrap (Attrs.Errorf a p pre e) = some e ∧
    stdUnwrap (Fields.Errorf f pre e) = some e := by
  refine ⟨?_, ?_, ?_, ?_, rfl, rfl⟩ <;> intro h <;> simp [unwrapMethod, h]

theorem c6_unwrap_transparent_witness :
    unwrapMethod (GoError.errAttrs [] 5 (GoError.fmtWrap "m: " (GoError.base "q")))
      = unwrapMethod (GoError.fmtWrap "m: " (GoError.base "q")) ∧
    unwrapMethod (GoError.errAttrs [] 5 (GoError.base "q")) = GoError.base "q" ∧
    unwrapMethod (GoError.fields [] (GoError.fmtWrap "m: " (GoError.base "q")))
      = unwrapMethod (GoError.fmtWrap "m: " (GoError.base "q")) ∧
    unwrapMethod (GoError.fields [] (GoError.base "q")) = GoError.base "q" :=
  ⟨(c6_unwrap_transparent [] [] 5 (GoError.fmtWrap "m: " (GoError.base "q")) ""
      (GoError.base "q")).1 rfl,
   (c6_unwrap_transparent [] [] 5 (GoError.base "q") "" (GoError.base "q")).2.1 rfl,
   (c6_unwrap_transparent [] [] 5 (GoError.fmtWrap "m: " (GoError.base "q")) ""
      (GoError.base "q")).2.2.1 rfl,
   (c6_unwrap_transparent [] [] 5 (GoError.base "q") "" (GoError.base "q")).2.2.2.1 rfl⟩

/-- C8: `Attrs.WithAttr` builds the new builder with
`append(a.attrs, as...)` and never copies the receiver's backing array
when spare capacity exists, so two builders derived from the same parent
can share one backing array.  A parent slice of length 3 and capacity 4
is reachable on the gc runtime (three chained `WithAttr` calls: append
growth 1 → 2 → 4).  Appending `("d","4")` for the first child and then
`("e","5")` for the second child writes the same array slot twice; the
first child then observes `("e","5")` where it appended `("d","4")` —
refuting the claim that appending through one builder never alters the
list observed through another. -/
theorem c8_append_shares_backing :
    readSlice
        (goAppend1
          (goAppend1 [[("a", Arg.str "1"), ("b", Arg.str "2"), ("c", Arg.str "3"),
                       ("", Arg.other GoVal.vnil)]]
            ⟨0, 3, 4⟩ ("d", Arg.str "4")).1
          ⟨0, 3, 4⟩ ("e", Arg.str "5")).1
        (goAppend1 [[("a", Arg.str "1"), ("b", Arg.str "2"), ("c", Arg.str "3"),
                     ("", Arg.other GoVal.vnil)]]
          ⟨0, 3, 4⟩ ("d", Arg.str "4")).2
      = [("a", Arg.str "1"), ("b", Arg.str "2"), ("c", Arg.str "3"),
         ("e", Arg.str "5")] ∧
    readSlice
        (goAppend1 [[("a", Arg.str "1"), ("b", Arg.str "2"), ("c", Arg.str "3"),
                     ("", Arg.other GoVal.vnil)]]
          ⟨0, 3, 4⟩ ("d", Arg.str "4")).1
        (goAppend1 [[("a", Arg.str "1"), ("b", Arg.str "2"), ("c", Arg.str "3"),
                     ("", Arg.other GoVal.vnil)]]
          ⟨0, 3, 4⟩ ("d", Arg.str "4")).2
      = [("a", Arg.str "1"), ("b", Arg.str "2"), ("c", Arg.str "3"),
         ("d", Arg.str "4")] ∧
    (("e", Arg.str "5") : Attr) ≠ ("d", Arg.str "4") :=
  ⟨rfl, rfl, by decide⟩

theorem attrsAux_eq_none (b : Bool) (e : GoError)
    (h : ∀ x ∈ chainAux b e, isHasAttrs x = false) : attrsAux b e = none := by
  induction e generalizing b with
  | base s => cases b <;> rfl
  | fmtWrap pre e ih =>
      cases b with
      | false =>
          have h' : ∀ x ∈ chainAux false e, isHasAttrs x = false := by
            intro x hx
            exact h x (by simp [chainAux, hx])
          simpa [attrsAux] using ih false h'
      | true =>
          have h' : ∀ x ∈ chainAux false e, isHasAttrs x = false := by
            intro x hx
            exact h x (by simpa [chainAux] using hx)
          simpa [attrsAux] using ih false h'
  | errAttrs a p w ih =>
      cases b with
      | false =>
          exfalso
          have := h (GoError.errAttrs a p w) (by simp [chainAux])
          simp [isHasAttrs] at this
      | true =>
          have h' : ∀ x ∈ chainAux true w, isHasAttrs x = false := by
            intro x hx
            exact h x (by simpa [chainAux] using hx)
          simpa [attrsAux] using ih true h'
  | fields f w ih =>
      cases b with
      | false =>
          have h' : ∀ x ∈ chainAux true w, isHasAttrs x = false := by
            intro x hx
            exact h x (by simp [chainAux, hx])
          simpa [attrsAux] using ih true h'
      | true =>
          have h' : ∀ x ∈ chainAux true w, isHasAttrs x = false := by
            intro x hx
            exact h x (by simpa [chainAux] using hx)
          simpa [attrsAux] using ih true h'

/-- C10: when no error in the chain implements the attribute capability,
`AttrsFrom` returns exactly the one-element placeholder list whose sole
attribute has the empty key and the nil value — never an empty or absent
list. -/
theorem c10_placeholder (e : GoError)
    (h : ∀ x ∈ chainList e, isHasAttrs x = false) :
    AttrsFrom e = [("", Arg.other GoVal.vnil)] ∧ (AttrsFrom e).length = 1 := by
  have hn : attrsAux false e = none := attrsAux_eq_none false e h
  refine ⟨?_, ?_⟩ <;> simp [AttrsFrom, hn]

theorem c10_placeholder_witness :
    AttrsFrom (GoError.base "no attrs") = [("", Arg.other GoVal.vnil)] ∧
    (AttrsFrom (GoError.base "no attrs")).length = 1 :=
  c10_placeholder (GoError.base "no attrs") (by decide)

theorem mapGet_mapSet_self (m : List (String × Arg)) (k : String) (v : Arg) :
    mapGet (mapSet m k v) k = some v := by
  induction m with
  | nil => simp [mapSet, mapGet]
  | cons kv rest ih =>
      obtain ⟨k0, v0⟩ := kv
      by_cases hk : k0 = k
      · simp [mapSet, mapGet, hk]
      · simp [mapSet, mapGet, hk, ih]

theorem mapGet_mapSet_ne (m : List (String × Arg)) (k k' : String) (v : Arg)
    (h : k ≠ k') : mapGet (mapSet m k v) k' = mapGet m k' := by
  induction m with
  | nil => simp [mapSet, mapGet, h]
  | cons kv rest ih =>
      obtain ⟨k0, v0⟩ := kv
      by_cases hk : k0 = k
      · subst hk
        simp [mapSet, mapGet, h]
      · simp [mapSet, mapGet, hk, ih]

/-- Assignments whose decoded keys all avoid `k'` do not change `m[k']`. -/
theorem mapGet_insertAll_of_not_mem (args : List Arg)
    (m : List (String × Arg)) (k' : String)
    (h : ∀ kk ∈ (argsToAttrSlice args).map Prod.fst, kk ≠ k') :
    mapGet (insertAll m args) k' = mapGet m k' := by
  induction args using argsToAttrSlice.induct generalizing m with
  | case1 => rfl
  | case2 s =>
      have hb : badKey ≠ k' := h badKey (by simp [argsToAttrSlice])
      simpa [insertAll] using mapGet_mapSet_ne m badKey k' (Arg.str s) hb
  | case3 s v rest ih =>
      have hs : s ≠ k' := h s (by simp [argsToAttrSlice])
      have h' : ∀ kk ∈ (argsToAttrSlice rest).map Prod.fst, kk ≠ k' := by
        intro kk hkk
        exact h kk (by simp [argsToAttrSlice, hkk])
      rw [show insertAll m (Arg.str s :: v :: rest)
            = insertAll (mapSet m s v) rest from rfl,
          ih (mapSet m s v) h', mapGet_mapSet_ne m s k' v hs]
  | case4 k v rest ih =>
      have hs : k ≠ k' := h k (by simp [argsToAttrSlice])
      have h' : ∀ kk ∈ (argsToAttrSlice rest).map Prod.fst, kk ≠ k' := by
        intro kk hkk
        exact h kk (by simp [argsToAttrSlice, hkk])
      rw [show insertAll m (Arg.attr k v :: rest)
            = insertAll (mapSet m k v) rest from rfl,
          ih (mapSet m k v) h', mapGet_mapSet_ne m k k' v hs]
  | case5 g rest ih =>
      have hs : badKey ≠ k' := h badKey (by simp [argsToAttrSlice])
      have h' : ∀ kk ∈ (argsToAttrSlice rest).map Prod.fst, kk ≠ k' := by
        intro kk hkk
        exact h kk (by simp [argsToAttrSlice, hkk])
      rw [show insertAll m (Arg.other g :: rest)
            = insertAll (mapSet m badKey (Arg.other g)) rest from rfl,
          ih (mapSet m badKey (Arg.other g)) h',
          mapGet_mapSet_ne m badKey k' (Arg.other g) hs]

/-- C5 (counterexample): the claim asserts that for *every* error the
result of `ToMap` binds `"err"` to `err.Error()`; but a field keyed
`"err"` overwrites the reserved entry — `Fields{"err","boom"}.Error("msg")`
maps `"err"` to `"boom"`, not to the message `"msg"`. -/
theorem c5_counterexample :
    mapGet (ToMap (Fields.Error [Arg.str "err", Arg.str "boom"] "msg")) "err"
      = some (Arg.str "boom") ∧
    errMessage (Fields.Error [Arg.str "err", Arg.str "boom"] "msg") = "msg" ∧
    Arg.str "boom" ≠ Arg.str "msg" :=
  ⟨rfl, rfl, by decide⟩

/-- C5 (amended): `ToMap` binds `"err"` to `err.Error()` whenever no
decoded field key equals `"err"` (a field keyed `"err"` overwrites the
reserved entry, since later pairwise writes overwrite earlier ones); each
decoded key maps to its last written value, so when nested field-wraps
attach the same key the inner (closer-to-root-cause) node's value is the
one present, because child fields are appended after parent fields. -/
theorem c5_tomap (e : GoError) (k m2 msg : String) (vo vi v1 v2 : Arg)
    (m : List (String × Arg))
    (h : ∀ kk ∈ (argsToAttrSlice ((fieldsAux false e).getD [])).map Prod.fst,
           kk ≠ "err") :
    mapGet (ToMap e) "err" = some (Arg.str (errMessage e)) ∧
    mapGet (ToMap (GoError.fields [Arg.str k, vo]
        (GoError.fmtWrap m2 (GoError.fields [Arg.str k, vi] (GoError.base msg))))) k
      = some vi ∧
    mapGet (mapSet (mapSet m k v1) k v2) k = some v2 := by
  refine ⟨?_, ?_, ?_⟩
  · unfold ToMap
    cases hf : fieldsAux false e with
    | none => rfl
    | some args =>
        have h' := h
        rw [hf] at h'
        simp only [Option.getD_some] at h'
        simpa using mapGet_insertAll_of_not_mem args
          [("err", Arg.str (errMessage e))] "err" h'
  · show mapGet (mapSet (mapSet [("err", Arg.str (m2 ++ msg))] k vo) k vi) k
      = some vi
    exact mapGet_mapSet_self _ k vi
  · exact mapGet_mapSet_self _ k v2

theorem c5_tomap_witness :
    (∀ kk ∈ (argsToAttrSlice
        ((fieldsAux false (Fields.Error [Arg.str "k1", Arg.str "v1"] "boom")).getD
          [])).map Prod.fst, kk ≠ "err") ∧
    mapGet (ToMap (Fields.Error [Arg.str "k1", Arg.str "v1"] "boom")) "err"
      = some (Arg.str (errMessage (Fields.Error [Arg.str "k1", Arg.str "v1"] "boom"))) :=
  ⟨by decide,
   (c5_tomap (Fields.Error [Arg.str "k1", Arg.str "v1"] "boom") "k" "m" "msg"
      (Arg.str "x") (Arg.str "y") (Arg.str "x") (Arg.str "y") [] (by decide)).1⟩

theorem lastAux_eq_lastOr (pred : GoError → Bool) (e : GoError) :
    ∀ (b : Bool) (acc : Option GoError),
      lastAux pred b e acc = lastOr ((chainAux b e).filter pred) acc := by
  induction e with
  | base s =>
      intro b acc
      cases b <;> cases hp : pred (GoError.base s) <;>
        simp [lastAux, chainAux, lastOr, hp, List.filter]
  | fmtWrap m e ih =>
      intro b acc
      cases b with
      | false =>
          cases hp : pred (GoError.fmtWrap m e) <;>
            simp [lastAux, chainAux, lastOr, hp, List.filter, ih]
      | true =>
          simpa [lastAux, chainAux] using ih false acc
  | errAttrs a p w ih =>
      intro b acc
      cases b with
      | false =>
          cases hp : pred (GoError.errAttrs a p w) <;>
            simp [lastAux, chainAux, lastOr, hp, List.filter, ih]
      | true =>
          simpa [lastAux, chainAux] using ih true acc
  | fields f w ih =>
      intro b acc
      cases b with
      | false =>
          cases hp : pred (GoError.fields f w) <;>
            simp [lastAux, chainAux, lastOr, hp, List.filter, ih]
      | true =>
          simpa [lastAux, chainAux] using ih true acc

theorem lastOr_eq_getLast (l : List GoError) :
    ∀ acc : Option GoError,
      lastOr l acc = (match l.getLast? with
                      | some m => some m
                      | none => acc) := by
  induction l with
  | nil => intro acc; rfl
  | cons x l ih =>
      intro acc
      rw [show lastOr (x :: l) acc = lastOr l (some x) from rfl, ih (some x)]
      cases l with
      | nil => rfl
      | cons y l' =>
          rw [List.getLast?_cons_cons]
          cases hgl : (y :: l').getLast? with
          | none =>
              exact absurd (List.getLast?_eq_none_iff.mp hgl) (List.cons_ne_nil y l')
          | some m => rfl

/-- C9: `Last(err, &target)` walks the full chain (the chain is the error
followed by the chain of its single-level standard unwrap) and returns
the last — innermost, closest to the root cause — error satisfying the
capability predicate, writing it into `target` and returning `true`; when
no error in the chain satisfies it, it returns `false` and leaves
`target` untouched. -/
theorem c9_last (pred : GoError → Bool) (e : GoError) (t : Option GoError) :
    Last pred e t = (match ((chainList e).filter pred).getLast? with
                     | some m => (true, some m)
                     | none => (false, t)) ∧
    chainList e = e :: (match stdUnwrap e with
                        | some n => chainList n
                        | none => []) := by
  refine ⟨?_, chainList_eq_unwrap e⟩
  rw [Last, lastAux_eq_lastOr pred e false none,
      lastOr_eq_getLast ((chainAux false e).filter pred) none]
  simp only [chainList]
  cases hgl : ((chainAux false e).filter pred).getLast? <;> simp [hgl]
